import Mathlib

/-!
Verification of the Model Repository (`src/utils/yaml_manager.py`) of the
DBT-YAML-Manager repository, as a shallow embedding in Lean 4.

Modelling choices, stated once here:

* YAML values are the inductive `YVal` (null, bool, int, string, sequence,
  mapping).  Mappings are ordered association lists of string keys, which is
  exactly the Python 3.7+ `dict` semantics the code relies on (insertion
  order preserved, unique keys, in-place value update keeps the position).
  Floats are not modelled; no claim concerns them.

* The filesystem is an association list `FS` from path strings to file
  `Content`.  A file's content is stored at the level of the parsed value
  (`Content.parsed v`) or as an unparseable blob carrying the parser message
  (`Content.malformed msg`).  `yaml.dump(data, sort_keys=False, indent=2)`
  is a deterministic, injective-on-this-subset serializer that preserves the
  insertion order of every mapping, and `yaml.safe_load` inverts it on this
  subset; therefore byte-level identity of saved files is represented
  faithfully by equality of the parsed values, with key order visible
  because `YVal.map` keeps the list order.

* Python exceptions are the `Err` type threaded through `Except`.
  `ValueError msg` models the `ValueError`s the code raises explicitly
  (the spec's ParseError / DuplicateModelError / NotFoundError, told apart
  by their messages, which are modelled verbatim).  `Err.typeError` and
  `Err.attributeError` stand for the `TypeError` / `AttributeError` Python
  raises when a document is not a mapping, when a `models` value is not a
  list, or when a list element has no `.get` method; no claim exercises
  those paths, they are kept only so the embedding does not silently return
  a value where CPython would raise.
-/

inductive YVal where
  | null : YVal
  | bool : Bool → YVal
  | int : Int → YVal
  | str : String → YVal
  | list : List YVal → YVal
  | map : List (String × YVal) → YVal

abbrev YMap := List (String × YVal)

/-- Lookup in an association list, first occurrence wins (Python `d[k]` /
`k in d`; dictionaries built by the modelled operations have unique keys). -/
def aget : List (String × α) → String → Option α
  | [], _ => none
  | (k', v) :: rest, k => if k' = k then some v else aget rest k

/-- Python `k in d`. -/
def amember (d : List (String × α)) (k : String) : Bool :=
  (aget d k).isSome

/-- Python `d[k] = v`: update the value in place if the key is present
(keeping its position), else append the new binding at the end. -/
def aset : List (String × α) → String → α → List (String × α)
  | [], k, v => [(k, v)]
  | (k', v') :: rest, k, v =>
      if k' = k then (k', v) :: rest else (k', v') :: aset rest k v

/-- Python `Path(p).unlink()` at the filesystem level: drop every binding of
the path (paths are unique in every reachable filesystem). -/
def aremove (d : List (String × α)) (k : String) : List (String × α) :=
  d.filter (fun kv => kv.1 ≠ k)

inductive Err where
  | valueError : String → Err
  | typeError : Err
  | attributeError : Err
deriving DecidableEq, Repr

inductive Content where
  | malformed : String → Content
  | parsed : YVal → Content

abbrev FS := List (String × Content)

/-- Python truthiness of a YAML value (`yaml.safe_load(f) or {}` replaces
falsy results by the empty dict). -/
def isFalsy : YVal → Bool
  | .null => true
  | .bool b => !b
  | .int n => n == 0
  | .str s => s.isEmpty
  | .list xs => xs.isEmpty
  | .map kvs => kvs.isEmpty

/-- `YAMLManager.load_yaml`: missing file gives `{}`; a malformed file
raises `ValueError("Error parsing YAML file: ...")`; otherwise the parsed
value, with falsy values (None, empty containers, ...) replaced by `{}`. -/
def load_yaml (fs : FS) (p : String) : Except Err YVal :=
  match aget fs p with
  | none => .ok (.map [])
  | some (.malformed msg) =>
      .error (.valueError ("Error parsing YAML file: " ++ msg))
  | some (.parsed v) => .ok (if isFalsy v then .map [] else v)

/-- `YAMLManager.save_yaml`: serialize `data` with
`yaml.dump(data, f, sort_keys=False, indent=2)` and overwrite the file.
Content is modelled at parsed-value level (see the header comment). -/
def save_yaml (fs : FS) (data : YVal) (p : String) : FS :=
  aset fs p (.parsed data)

/-- Python dict literal `\x7b"name": model_name, **config\x7d`: start from the
one-entry dict binding `name`, then fold the entries of `config` over it
with dict assignment.  A `name` key inside `config` therefore overwrites
the value (keeping the first position). -/
def mkRecord (name : String) (config : YMap) : YMap :=
  config.foldl (fun acc kv => aset acc kv.1 kv.2) [("name", YVal.str name)]

/-- Python `model.get("name") == model_name` for a dict `model`: true only
when the `name` field is a string equal to `model_name` (absent fields give
`None`, non-string values compare unequal to a `str`, without error). -/
def isNameMatch (r : YMap) (n : String) : Bool :=
  match aget r "name" with
  | some (.str s) => s == n
  | _ => false

/-- Duplicate scan of `create_model`:
`for model in existing_config["models"]: if model.get("name") == model_name`.
A non-dict element reached before a match raises `AttributeError`. -/
def hasDup : List YVal → String → Except Err Bool
  | [], _ => .ok false
  | m :: rest, n =>
      match m with
      | .map r => if isNameMatch r n then .ok true else hasDup rest n
      | _ => .error .attributeError

/-- `YAMLManager.create_model`.  Resolves the target path, loads the
document, makes sure a `models` list exists, raises
`ValueError("Model ... already exists in ...")` on a duplicate, else appends
`\x7b"name": model_name, **config\x7d` and saves, returning the path. -/
def create_model (fs : FS) (dir n : String) (config : YMap)
    (file_name : Option String) : Except Err (FS × String) :=
  let fname := file_name.getD (n ++ ".yml")
  let path := dir ++ "/" ++ fname
  match load_yaml fs path with
  | .error e => .error e
  | .ok (.map kvs) =>
      let kvs1 := if amember kvs "models" then kvs else aset kvs "models" (.list [])
      match aget kvs1 "models" with
      | some (.list ms) =>
          match hasDup ms n with
          | .error e => .error e
          | .ok true =>
              .error (.valueError ("Model " ++ n ++ " already exists in " ++ fname))
          | .ok false =>
              let doc := YVal.map (aset kvs1 "models"
                (.list (ms ++ [YVal.map (mkRecord n config)])))
              .ok (save_yaml fs doc path, path)
      | _ => .error .typeError
  | .ok _ => .error .typeError

/-- Scan-and-replace loop of `update_model`: find the first record whose
`name` matches and replace it wholesale by
`\x7b"name": model_name, **new_config\x7d`; `none` when no record matches.
A non-dict element reached before a match raises `AttributeError`. -/
def findReplace : List YVal → String → YMap → Except Err (Option (List YVal))
  | [], _, _ => .ok none
  | m :: rest, n, cfg =>
      match m with
      | .map r =>
          if isNameMatch r n then .ok (some (YVal.map (mkRecord n cfg) :: rest))
          else
            match findReplace rest n cfg with
            | .error e => .error e
            | .ok none => .ok none
            | .ok (some rest') => .ok (some (YVal.map r :: rest'))
      | _ => .error .attributeError

/-- `YAMLManager.update_model`.  Raises `ValueError("No models found in ...")`
when the loaded document has no `models` key, replaces the first matching
record and saves, or raises `ValueError("Model ... not found in ...")` after
an unsuccessful scan. -/
def update_model (fs : FS) (path n : String) (cfg : YMap) : Except Err FS :=
  match load_yaml fs path with
  | .error e => .error e
  | .ok (.map kvs) =>
      match aget kvs "models" with
      | none => .error (.valueError ("No models found in " ++ path))
      | some (.list ms) =>
          match findReplace ms n cfg with
          | .error e => .error e
          | .ok none =>
              .error (.valueError ("Model " ++ n ++ " not found in " ++ path))
          | .ok (some ms') =>
              .ok (save_yaml fs (.map (aset kvs "models" (.list ms'))) path)
      | some _ => .error .typeError
  | .ok _ => .error .typeError

/-- List comprehension of `delete_model`:
`[m for m in config["models"] if m.get("name") != model_name]`. -/
def filterModels : List YVal → String → Except Err (List YVal)
  | [], _ => .ok []
  | m :: rest, n =>
      match m with
      | .map r =>
          match filterModels rest n with
          | .error e => .error e
          | .ok rest' =>
              .ok (if isNameMatch r n then rest' else YVal.map r :: rest')
      | _ => .error .attributeError

/-- `YAMLManager.delete_model`.  Raises `ValueError("No models found in ...")`
when the loaded document has no `models` key; otherwise removes every record
whose `name` matches, unlinks the file when the remaining list is empty, and
saves the filtered document otherwise.  There is no not-found check. -/
def delete_model (fs : FS) (path n : String) : Except Err FS :=
  match load_yaml fs path with
  | .ok (.map kvs) =>
      match aget kvs "models" with
      | none => .error (.valueError ("No models found in " ++ path))
      | some (.list ms) =>
          match filterModels ms n with
          | .error e => .error e
          | .ok ms' =>
              if ms'.isEmpty then .ok (aremove fs path)
              else .ok (save_yaml fs (.map (aset kvs "models" (.list ms'))) path)
      | some _ => .error .typeError
  | .ok _ => .error .typeError
  | .error e => .error e

/-- `YAMLManager.validate_yaml`: a pure boolean check that the value is a
dict, has a `models` key, the value under it is a list, and every element
is a dict containing a `name` key. -/
def validate_yaml (v : YVal) : Bool :=
  match v with
  | .map kvs =>
      match aget kvs "models" with
      | some (.list ms) =>
          ms.all (fun m =>
            match m with
            | .map r => amember r "name"
            | _ => false)
      | some _ => false
      | none => false
  | _ => false

/-- Modelled from the spec (section 4.1, `validate`): the value is a mapping
type, contains the key `models`, the value under `models` is a sequence,
and every element of that sequence is a mapping containing a `name` key.
Used only to compare the spec's wording against `validate_yaml`. -/
def ValidSpec (v : YVal) : Prop :=
  ∃ kvs ms, v = YVal.map kvs ∧
    aget kvs "models" = some (.list ms) ∧
    ∀ m ∈ ms, ∃ r, m = YVal.map r ∧ amember r "name" = true

/-- Name of a record, when the record is a mapping whose `name` field is a
string (the only shape the operations themselves ever write).  Used to
state the per-document name-uniqueness invariant. -/
def recNameStr : YVal → Option String
  | .map r =>
      match aget r "name" with
      | some (.str s) => some s
      | _ => none
  | _ => none

/-- Document well-formedness: the parsed content is a mapping whose `models`
key holds a list of records, every record carries a string `name`, and the
names are pairwise distinct ("no two records share the same name"). -/
def docOk (c : Content) : Prop :=
  ∃ kvs ms, c = Content.parsed (.map kvs) ∧
    aget kvs "models" = some (.list ms) ∧
    (∀ m ∈ ms, (recNameStr m).isSome) ∧
    (ms.filterMap recNameStr).Nodup

/-- Every file of the filesystem is a well-formed document. -/
def fsOk (fs : FS) : Prop := ∀ p c, aget fs p = some c → docOk c

/-- One successful repository operation, unrestricted: exactly the
successful runs of `create_model`, `update_model`, `delete_model`. -/
inductive RepoStep : FS → FS → Prop where
  | create {fs : FS} {dir n : String} {cfg : YMap} {fo : Option String}
      {fs' : FS} {ret : String}
      (h : create_model fs dir n cfg fo = .ok (fs', ret)) : RepoStep fs fs'
  | update {fs : FS} {path n : String} {cfg : YMap} {fs' : FS}
      (h : update_model fs path n cfg = .ok fs') : RepoStep fs fs'
  | delete {fs : FS} {path n : String} {fs' : FS}
      (h : delete_model fs path n = .ok fs') : RepoStep fs fs'

/-- Filesystems reachable from the empty filesystem by any sequence of
successful operations (a failed call raises and leaves the state as it
was, so only successful calls move the state). -/
inductive RepoReach : FS → Prop where
  | init : RepoReach []
  | step (fs fs' : FS) (hr : RepoReach fs) (hs : RepoStep fs fs') : RepoReach fs'

/-- One successful repository operation whose `fields` mapping carries no
`name` key.  The restriction matters: the Python dict literal
`\x7b"name": model_name, **config\x7d` lets a `name` entry of `config`
override the explicit argument, which breaks name uniqueness (see the C3
counterexample). -/
inductive SafeStep : FS → FS → Prop where
  | create {fs : FS} {dir n : String} {cfg : YMap} {fo : Option String}
      {fs' : FS} {ret : String} (hcfg : aget cfg "name" = none)
      (h : create_model fs dir n cfg fo = .ok (fs', ret)) : SafeStep fs fs'
  | update {fs : FS} {path n : String} {cfg : YMap} {fs' : FS}
      (hcfg : aget cfg "name" = none)
      (h : update_model fs path n cfg = .ok fs') : SafeStep fs fs'
  | delete {fs : FS} {path n : String} {fs' : FS}
      (h : delete_model fs path n = .ok fs') : SafeStep fs fs'

/-- Filesystems reachable from the empty filesystem by successful
operations whose `fields` mappings never carry a `name` key. -/
inductive SafeReach : FS → Prop where
  | init : SafeReach []
  | step (fs fs' : FS) (hr : SafeReach fs) (hs : SafeStep fs fs') : SafeReach fs'

/-! ### Association-list lemmas -/

theorem aget_aset_self (d : List (String × α)) (k : String) (v : α) :
    aget (aset d k v) k = some v := by
  induction d with
  | nil => simp [aset, aget]
  | cons kv rest ih =>
    obtain ⟨k', v'⟩ := kv
    by_cases h : k' = k
    · simp [aset, aget, h]
    · simp [aset, aget, h, ih]

theorem aget_aset_ne (d : List (String × α)) (k k' : String) (v : α)
    (h : k' ≠ k) : aget (aset d k v) k' = aget d k' := by
  induction d with
  | nil => simp [aset, aget, Ne.symm h]
  | cons kv rest ih =>
    obtain ⟨k₀, v₀⟩ := kv
    by_cases h₀ : k₀ = k
    · subst h₀
      simp [aset, aget, Ne.symm h]
    · simp [aset, aget, h₀, ih]

theorem aset_eq_of_aget (d : List (String × α)) (k : String) (v : α)
    (h : aget d k = some v) : aset d k v = d := by
  induction d with
  | nil => simp [aget] at h
  | cons kv rest ih =>
    obtain ⟨k₀, v₀⟩ := kv
    by_cases h₀ : k₀ = k
    · simp [aget, h₀] at h
      simp [aset, h₀, h]
    · simp [aget, h₀] at h
      simp [aset, h₀, ih h]

theorem aget_aremove_self (d : List (String × α)) (k : String) :
    aget (aremove d k) k = none := by
  induction d with
  | nil => simp [aremove, aget]
  | cons kv rest ih =>
    obtain ⟨k₀, v₀⟩ := kv
    by_cases h₀ : k₀ = k
    · simpa [aremove, h₀] using ih
    · simpa [aremove, aget, h₀] using ih

theorem aget_aremove_ne (d : List (String × α)) (k k' : String)
    (h : k' ≠ k) : aget (aremove d k) k' = aget d k' := by
  induction d with
  | nil => rfl
  | cons kv rest ih =>
    obtain ⟨k₀, v₀⟩ := kv
    by_cases h₀ : k₀ = k
    · subst h₀
      simpa [aremove, aget, Ne.symm h] using ih
    · by_cases h₁ : k₀ = k'
      · subst h₁
        simp [aremove, aget, h]
      · simpa [aremove, aget, h₀, h₁] using ih

theorem aget_eq_none_iff (d : List (String × α)) (k : String) :
    aget d k = none ↔ ∀ kv ∈ d, kv.1 ≠ k := by
  induction d with
  | nil => simp [aget]
  | cons kv rest ih =>
    obtain ⟨k₀, v₀⟩ := kv
    by_cases h₀ : k₀ = k
    · simp [aget, h₀]
    · simp [aget, h₀, ih]

theorem isEmpty_false_of_aget (d : List (String × α)) (k : String) (v : α)
    (h : aget d k = some v) : d.isEmpty = false := by
  cases d with
  | nil => simp [aget] at h
  | cons kv rest => rfl

theorem aget_append_of_none (d₁ d₂ : List (String × α)) (k : String)
    (h : aget d₁ k = none) : aget (d₁ ++ d₂) k = aget d₂ k := by
  induction d₁ with
  | nil => rfl
  | cons kv rest ih =>
    obtain ⟨k₀, v₀⟩ := kv
    by_cases h₀ : k₀ = k
    · simp [aget, h₀] at h
    · simp [aget, h₀] at h ⊢
      exact ih h

theorem aset_append_of_none (d : List (String × α)) (k : String) (v : α)
    (h : aget d k = none) : aset d k v = d ++ [(k, v)] := by
  induction d with
  | nil => rfl
  | cons kv rest ih =>
    obtain ⟨k₀, v₀⟩ := kv
    by_cases h₀ : k₀ = k
    · simp [aget, h₀] at h
    · simp [aget, h₀] at h
      simp [aset, h₀, ih h]

/-! ### Characterization of the dict literal `mkRecord` -/

theorem foldl_aset_keep (cfg : YMap) (k : String) (v : YVal)
    (h : ∀ kv ∈ cfg, kv.1 ≠ k) (rest : YMap) :
    cfg.foldl (fun acc kv => aset acc kv.1 kv.2) ((k, v) :: rest)
      = (k, v) :: cfg.foldl (fun acc kv => aset acc kv.1 kv.2) rest := by
  induction cfg generalizing rest with
  | nil => rfl
  | cons kv cfg ih =>
    obtain ⟨k', v'⟩ := kv
    have hk' : k' ≠ k := h (k', v') (by simp)
    simp only [List.foldl_cons]
    have hstep : aset ((k, v) :: rest) k' v' = (k, v) :: aset rest k' v' := by
      simp [aset, Ne.symm hk']
    rw [hstep, ih (fun kv hkv => h kv (List.mem_cons_of_mem _ hkv)) (aset rest k' v')]

theorem foldl_aset_fresh (cfg : YMap) (hnd : (cfg.map Prod.fst).Nodup)
    (acc : YMap) (hfresh : ∀ kv ∈ cfg, aget acc kv.1 = none) :
    cfg.foldl (fun acc kv => aset acc kv.1 kv.2) acc = acc ++ cfg := by
  induction cfg generalizing acc with
  | nil => simp
  | cons kv cfg ih =>
    obtain ⟨k, v⟩ := kv
    simp only [List.map_cons, List.nodup_cons] at hnd
    simp only [List.foldl_cons]
    have h1 : aget acc k = none := hfresh (k, v) (by simp)
    rw [aset_append_of_none acc k v h1]
    rw [ih hnd.2 (acc ++ [(k, v)]) ?fresh]
    · simp
    case fresh =>
      intro kv' hkv'
      have hne : kv'.1 ≠ k := by
        intro hh
        exact hnd.1 (hh ▸ List.mem_map_of_mem Prod.fst hkv')
      rw [aget_append_of_none _ _ _ (hfresh kv' (List.mem_cons_of_mem _ hkv'))]
      simp [aget, Ne.symm hne]

theorem mkRecord_no_name (n : String) (cfg : YMap)
    (h : aget cfg "name" = none) (hnd : (cfg.map Prod.fst).Nodup) :
    mkRecord n cfg = ("name", YVal.str n) :: cfg := by
  unfold mkRecord
  rw [foldl_aset_keep cfg "name" (YVal.str n) ((aget_eq_none_iff _ _).1 h) []]
  rw [foldl_aset_fresh cfg hnd [] (fun kv _ => rfl)]
  rfl

theorem mkRecord_name_head (n : String) (cfg : YMap)
    (h : aget cfg "name" = none) :
    aget (mkRecord n cfg) "name" = some (YVal.str n) := by
  unfold mkRecord
  rw [foldl_aset_keep cfg "name" (YVal.str n) ((aget_eq_none_iff _ _).1 h) []]
  rfl

theorem mkRecord_with_name (n : String) (pre post : YMap) (w : YVal)
    (hnd : ((pre ++ ("name", w) :: post).map Prod.fst).Nodup) :
    mkRecord n (pre ++ ("name", w) :: post) = ("name", w) :: (pre ++ post) := by
  simp only [List.map_append, List.map_cons, List.nodup_append, List.nodup_cons] at hnd
  obtain ⟨hpreNd, ⟨hnameNotPost, hpostNd⟩, hdisj⟩ := hnd
  have hpreNe : ∀ kv ∈ pre, kv.1 ≠ "name" := by
    intro kv hkv hh
    exact hdisj (List.mem_map_of_mem Prod.fst hkv) (by simp [hh])
  have hpostNe : ∀ kv ∈ post, kv.1 ≠ "name" := by
    intro kv hkv hh
    exact hnameNotPost (hh ▸ List.mem_map_of_mem Prod.fst hkv)
  unfold mkRecord
  rw [List.foldl_append]
  rw [foldl_aset_keep pre "name" (YVal.str n) hpreNe []]
  rw [foldl_aset_fresh pre hpreNd [] (fun kv _ => rfl)]
  simp only [List.nil_append, List.foldl_cons]
  have hstep : aset (("name", YVal.str n) :: pre) "name" w = ("name", w) :: pre := by
    simp [aset]
  rw [hstep]
  rw [foldl_aset_keep post "name" w hpostNe pre]
  rw [foldl_aset_fresh post hpostNd pre ?fresh]
  case fresh =>
    intro kv hkv
    rw [aget_eq_none_iff]
    intro kv' hkv' hh
    exact hdisj (List.mem_map_of_mem Prod.fst hkv')
      (by simp [hh, List.mem_map_of_mem Prod.fst hkv])

/-! ### Record names, document well-formedness -/

theorem isNameMatch_iff (r : YMap) (n : String) :
    isNameMatch r n = true ↔ aget r "name" = some (YVal.str n) := by
  unfold isNameMatch
  cases h : aget r "name" with
  | none => simp
  | some v => cases v <;> simp [beq_iff_eq]

theorem recNameStr_map_eq (r : YMap) (n : String) :
    recNameStr (YVal.map r) = some n ↔ aget r "name" = some (YVal.str n) := by
  unfold recNameStr
  cases h : aget r "name" with
  | none => simp [h]
  | some v => cases v <;> simp [h]

theorem isNameMatch_eq_recName (r : YMap) (n : String) :
    isNameMatch r n = true ↔ recNameStr (YVal.map r) = some n := by
  rw [isNameMatch_iff, recNameStr_map_eq]

/-! ### Scan lemmas for the three operations -/

theorem hasDup_eq_false (ms : List YVal) (n : String)
    (hok : ∀ m ∈ ms, (recNameStr m).isSome)
    (h : hasDup ms n = .ok false) :
    ∀ m ∈ ms, recNameStr m ≠ some n := by
  induction ms with
  | nil => simp
  | cons m rest ih =>
    intro m' hm'
    have hhead := hok m (by simp)
    cases m with
    | map r =>
      unfold hasDup at h
      by_cases hmatch : isNameMatch r n = true
      · simp [hmatch] at h
      · simp [Bool.not_eq_true] at hmatch
        simp [hmatch] at h
        rcases List.mem_cons.1 hm' with hh | hh
        · subst hh
          intro hc
          exact absurd ((isNameMatch_eq_recName r n).2 hc) (by simp [hmatch])
        · exact ih (fun m hm => hok m (List.mem_cons_of_mem _ hm)) h m' hh
    | null => simp [recNameStr] at hhead
    | bool b => simp [recNameStr] at hhead
    | int i => simp [recNameStr] at hhead
    | str s => simp [recNameStr] at hhead
    | list xs => simp [recNameStr] at hhead

theorem hasDup_eq_true (ms : List YVal) (n : String)
    (hrec : ∀ m ∈ ms, ∃ r, m = YVal.map r)
    (hex : ∃ r, YVal.map r ∈ ms ∧ isNameMatch r n = true) :
    hasDup ms n = .ok true := by
  induction ms with
  | nil => simp at hex
  | cons m rest ih =>
    obtain ⟨r₀, hr₀⟩ := hrec m (by simp)
    subst hr₀
    unfold hasDup
    by_cases hmatch : isNameMatch r₀ n = true
    · simp [hmatch]
    · simp [Bool.not_eq_true] at hmatch
      simp [hmatch]
      obtain ⟨r, hr, hrm⟩ := hex
      rcases List.mem_cons.1 hr with hh | hh
      · cases hh
        simp [hrm] at hmatch
      · exact ih (fun m hm => hrec m (List.mem_cons_of_mem _ hm)) ⟨r, hh, hrm⟩

theorem findReplace_none (ms : List YVal) (n : String) (cfg : YMap)
    (h : ∀ m ∈ ms, ∃ r, m = YVal.map r ∧ isNameMatch r n = false) :
    findReplace ms n cfg = .ok none := by
  induction ms with
  | nil => rfl
  | cons m rest ih =>
    obtain ⟨r, hr, hmatch⟩ := h m (by simp)
    subst hr
    unfold findReplace
    simp [hmatch, ih (fun m hm => h m (List.mem_cons_of_mem _ hm))]

theorem findReplace_found (pre post : List YVal) (r : YMap) (n : String)
    (cfg : YMap)
    (hpre : ∀ m ∈ pre, ∃ q, m = YVal.map q ∧ isNameMatch q n = false)
    (hr : isNameMatch r n = true) :
    findReplace (pre ++ YVal.map r :: post) n cfg
      = .ok (some (pre ++ YVal.map (mkRecord n cfg) :: post)) := by
  induction pre with
  | nil =>
    unfold findReplace
    simp [hr]
  | cons m pre ih =>
    obtain ⟨q, hq, hmatch⟩ := hpre m (by simp)
    subst hq
    unfold findReplace
    simp [hmatch, ih (fun m hm => hpre m (List.mem_cons_of_mem _ hm))]

theorem findReplace_ok_names (ms : List YVal) (n : String) (cfg : YMap)
    (ms' : List YVal)
    (hok : ∀ m ∈ ms, (recNameStr m).isSome)
    (hcfg : aget cfg "name" = none)
    (h : findReplace ms n cfg = .ok (some ms')) :
    (∀ m ∈ ms', (recNameStr m).isSome) ∧
      ms'.filterMap recNameStr = ms.filterMap recNameStr := by
  induction ms generalizing ms' with
  | nil => simp [findReplace] at h
  | cons m rest ih =>
    have hhead := hok m (by simp)
    cases m with
    | map r =>
      unfold findReplace at h
      by_cases hmatch : isNameMatch r n = true
      · simp [hmatch] at h
        subst h
        have hnew : recNameStr (YVal.map (mkRecord n cfg)) = some n :=
          (recNameStr_map_eq _ _).2 (mkRecord_name_head n cfg hcfg)
        have holdname : recNameStr (YVal.map r) = some n :=
          (isNameMatch_eq_recName r n).1 hmatch
        constructor
        · intro m' hm'
          rcases List.mem_cons.1 hm' with hh | hh
          · subst hh; simp [hnew]
          · exact hok m' (List.mem_cons_of_mem _ hh)
        · simp [List.filterMap_cons, hnew, holdname]
      · simp [Bool.not_eq_true] at hmatch
        simp only [hmatch, Bool.false_eq_true, if_false] at h
        cases hrec : findReplace rest n cfg with
        | error e => rw [hrec] at h; simp at h
        | ok o =>
          cases o with
          | none => rw [hrec] at h; simp at h
          | some rest' =>
            rw [hrec] at h
            simp at h
            subst h
            obtain ⟨ih1, ih2⟩ :=
              ih rest' (fun m hm => hok m (List.mem_cons_of_mem _ hm)) hrec
            obtain ⟨s, hs⟩ := Option.isSome_iff_exists.1 hhead
            constructor
            · intro m' hm'
              rcases List.mem_cons.1 hm' with hh | hh
              · subst hh; exact hhead
              · exact ih1 m' hh
            · simp [List.filterMap_cons, hs, ih2]
    | null => simp [recNameStr] at hhead
    | bool b => simp [recNameStr] at hhead
    | int i => simp [recNameStr] at hhead
    | str s => simp [recNameStr] at hhead
    | list xs => simp [recNameStr] at hhead

theorem filterModels_sublist (ms ms' : List YVal) (n : String)
    (h : filterModels ms n = .ok ms') : ms'.Sublist ms := by
  induction ms generalizing ms' with
  | nil =>
    simp [filterModels] at h
    subst h; exact List.Sublist.refl _
  | cons m rest ih =>
    cases m with
    | map r =>
      unfold filterModels at h
      cases hrec : filterModels rest n with
      | error e => rw [hrec] at h; simp at h
      | ok rest' =>
        rw [hrec] at h
        simp at h
        by_cases hmatch : isNameMatch r n = true
        · simp [hmatch] at h
          subst h
          exact (ih rest' hrec).cons _
        · simp [Bool.not_eq_true] at hmatch
          simp [hmatch] at h
          subst h
          exact (ih rest' hrec).cons₂ _
    | null => simp [filterModels] at h
    | bool b => simp [filterModels] at h
    | int i => simp [filterModels] at h
    | str s => simp [filterModels] at h
    | list xs => simp [filterModels] at h

theorem filterModels_no_match (ms : List YVal) (n : String)
    (h : ∀ m ∈ ms, ∃ r, m = YVal.map r ∧ isNameMatch r n = false) :
    filterModels ms n = .ok ms := by
  induction ms with
  | nil => rfl
  | cons m rest ih =>
    obtain ⟨r, hr, hmatch⟩ := h m (by simp)
    subst hr
    unfold filterModels
    simp [hmatch, ih (fun m hm => h m (List.mem_cons_of_mem _ hm))]

/-! ### Preservation of document well-formedness by the operations -/

theorem load_yaml_ok_cases (fs : FS) (p : String) (v : YVal)
    (hfs : fsOk fs) (h : load_yaml fs p = .ok v) :
    (aget fs p = none ∧ v = YVal.map []) ∨
    (aget fs p = some (.parsed v) ∧ docOk (.parsed v)) := by
  unfold load_yaml at h
  cases hget : aget fs p with
  | none =>
    rw [hget] at h
    simp at h
    exact Or.inl ⟨rfl, h.symm⟩
  | some c =>
    rw [hget] at h
    cases c with
    | malformed msg => simp at h
    | parsed w =>
      have hdoc := hfs p _ hget
      obtain ⟨kvs, ms, hc, hms, hok, hnd⟩ := hdoc
      injection hc with hw
      subst hw
      have hne : kvs.isEmpty = false := isEmpty_false_of_aget kvs "models" _ hms
      simp only [isFalsy, hne, Bool.false_eq_true, if_false] at h
      simp at h
      subst h
      exact Or.inr ⟨rfl, ⟨kvs, ms, rfl, hms, hok, hnd⟩⟩

theorem fresh_name_nodup (ms : List YVal) (n : String)
    (hok : ∀ m ∈ ms, (recNameStr m).isSome)
    (hnd : (ms.filterMap recNameStr).Nodup)
    (hfresh : ∀ m ∈ ms, recNameStr m ≠ some n) (newRec : YVal)
    (hnew : recNameStr newRec = some n) :
    (∀ m ∈ ms ++ [newRec], (recNameStr m).isSome) ∧
      ((ms ++ [newRec]).filterMap recNameStr).Nodup := by
  constructor
  · intro m hm
    rcases List.mem_append.1 hm with hh | hh
    · exact hok m hh
    · simp at hh; subst hh; simp [hnew]
  · rw [List.filterMap_append]
    simp only [List.filterMap_cons, hnew, List.filterMap_nil]
    rw [List.nodup_append]
    refine ⟨hnd, List.nodup_singleton n, ?_⟩
    intro s hs hs'
    simp at hs'
    subst hs'
    obtain ⟨m, hm, hms⟩ := List.mem_filterMap.1 hs
    exact hfresh m hm hms

theorem fsOk_create (fs : FS) (dir n : String) (cfg : YMap) (fo : Option String)
    (fs' : FS) (ret : String)
    (hfs : fsOk fs) (hcfg : aget cfg "name" = none)
    (h : create_model fs dir n cfg fo = .ok (fs', ret)) : fsOk fs' := by
  have hnew : recNameStr (YVal.map (mkRecord n cfg)) = some n :=
    (recNameStr_map_eq _ _).2 (mkRecord_name_head n cfg hcfg)
  simp only [create_model] at h
  split at h
  · exact absurd h (by simp)
  case _ kvs heq₁ =>
    split at h
    case _ ms heq₂ =>
      split at h
      · exact absurd h (by simp)
      · exact absurd h (by simp)
      case _ heq₃ =>
        simp only [Except.ok.injEq, Prod.mk.injEq] at h
        obtain ⟨h1, _⟩ := h
        subst h1
        -- the appended document is well formed
        have hmodels :
            (∀ m ∈ ms, (recNameStr m).isSome) ∧
              (ms.filterMap recNameStr).Nodup := by
          rcases load_yaml_ok_cases fs _ _ hfs heq₁ with ⟨_, hv⟩ | ⟨_, hdoc⟩
          · injection hv with hv'
            subst hv'
            cases ms with
            | nil => simp
            | cons m ms' =>
              exfalso
              simp [amember, aget, aset] at heq₂
          · obtain ⟨kvs₀, ms₀, hc, hms₀, hok₀, hnd₀⟩ := hdoc
            injection hc with hc'
            injection hc' with hc''
            subst hc''
            simp only [amember, hms₀, Option.isSome_some, if_true] at heq₂
            injection heq₂ with e
            injection e with e'
            subst e'
            exact ⟨hok₀, hnd₀⟩
        have hfresh := hasDup_eq_false ms n hmodels.1 heq₃
        have hmodels' := fresh_name_nodup ms n hmodels.1 hmodels.2 hfresh _ hnew
        intro p c hc
        by_cases hp : p = dir ++ "/" ++ fo.getD (n ++ ".yml")
        · subst hp
          rw [save_yaml, aget_aset_self] at hc
          injection hc with hc'
          subst hc'
          exact ⟨_, _, rfl, aget_aset_self _ _ _, hmodels'.1, hmodels'.2⟩
        · rw [save_yaml, aget_aset_ne _ _ _ _ hp] at hc
          exact hfs p c hc
    · exact absurd h (by simp)
  · exact absurd h (by simp)

theorem fsOk_update (fs : FS) (path n : String) (cfg : YMap) (fs' : FS)
    (hfs : fsOk fs) (hcfg : aget cfg "name" = none)
    (h : update_model fs path n cfg = .ok fs') : fsOk fs' := by
  simp only [update_model] at h
  split at h
  · exact absurd h (by simp)
  case _ kvs heq₁ =>
    split at h
    · exact absurd h (by simp)
    case _ ms heq₂ =>
      split at h
      · exact absurd h (by simp)
      · exact absurd h (by simp)
      case _ ms' heq₃ =>
        simp only [Except.ok.injEq] at h
        subst h
        have hdoc :
            (∀ m ∈ ms, (recNameStr m).isSome) ∧
              (ms.filterMap recNameStr).Nodup := by
          rcases load_yaml_ok_cases fs _ _ hfs heq₁ with ⟨_, hv⟩ | ⟨_, hdoc⟩
          · injection hv with hv'
            subst hv'
            simp [aget] at heq₂
          · obtain ⟨kvs₀, ms₀, hc, hms₀, hok₀, hnd₀⟩ := hdoc
            injection hc with hc'
            injection hc' with hc''
            subst hc''
            rw [hms₀] at heq₂
            injection heq₂ with e
            injection e with e'
            subst e'
            exact ⟨hok₀, hnd₀⟩
        obtain ⟨hok, hnd⟩ := hdoc
        obtain ⟨hok', hnames⟩ := findReplace_ok_names ms n cfg ms' hok hcfg heq₃
        intro p c hc
        by_cases hp : p = path
        · subst hp
          rw [save_yaml, aget_aset_self] at hc
          injection hc with hc'
          subst hc'
          refine ⟨_, _, rfl, aget_aset_self _ _ _, hok', ?_⟩
          rw [hnames]
          exact hnd
        · rw [save_yaml, aget_aset_ne _ _ _ _ hp] at hc
          exact hfs p c hc
    · exact absurd h (by simp)
  · exact absurd h (by simp)

theorem fsOk_delete (fs : FS) (path n : String) (fs' : FS)
    (hfs : fsOk fs) (h : delete_model fs path n = .ok fs') : fsOk fs' := by
  simp only [delete_model] at h
  split at h
  case _ kvs heq₁ =>
    split at h
    · exact absurd h (by simp)
    case _ ms heq₂ =>
      split at h
      · exact absurd h (by simp)
      case _ ms' heq₃ =>
        have hdoc :
            (∀ m ∈ ms, (recNameStr m).isSome) ∧
              (ms.filterMap recNameStr).Nodup := by
          rcases load_yaml_ok_cases fs _ _ hfs heq₁ with ⟨_, hv⟩ | ⟨_, hdoc⟩
          · injection hv with hv'
            subst hv'
            simp [aget] at heq₂
          · obtain ⟨kvs₀, ms₀, hc, hms₀, hok₀, hnd₀⟩ := hdoc
            injection hc with hc'
            injection hc' with hc''
            subst hc''
            rw [hms₀] at heq₂
            injection heq₂ with e
            injection e with e'
            subst e'
            exact ⟨hok₀, hnd₀⟩
        obtain ⟨hok, hnd⟩ := hdoc
        have hsub := filterModels_sublist ms ms' n heq₃
        split at h
        · simp only [Except.ok.injEq] at h
          subst h
          intro p c hc
          by_cases hp : p = path
          · subst hp
            rw [aget_aremove_self] at hc
            exact absurd hc (by simp)
          · rw [aget_aremove_ne _ _ _ hp] at hc
            exact hfs p c hc
        · simp only [Except.ok.injEq] at h
          subst h
          intro p c hc
          by_cases hp : p = path
          · subst hp
            rw [save_yaml, aget_aset_self] at hc
            injection hc with hc'
            subst hc'
            refine ⟨_, _, rfl, aget_aset_self _ _ _, ?_, ?_⟩
            · intro m hm
              exact hok m (hsub.subset hm)
            · exact hnd.sublist (hsub.filterMap recNameStr)
          · rw [save_yaml, aget_aset_ne _ _ _ _ hp] at hc
            exact hfs p c hc
    · exact absurd h (by simp)
  · exact absurd h (by simp)
  · exact absurd h (by simp)

/-! ### Reachable filesystems -/

theorem fsOk_of_safeReach (fs : FS) (h : SafeReach fs) : fsOk fs := by
  induction h with
  | init =>
    intro p c hc
    simp [aget] at hc
  | step fs fs' hr hs ih =>
    cases hs with
    | create hcfg hop => exact fsOk_create _ _ _ _ _ _ _ ih hcfg hop
    | update hcfg hop => exact fsOk_update _ _ _ _ _ ih hcfg hop
    | delete hop => exact fsOk_delete _ _ _ _ ih hop

/-! ### Forward evaluation of the operations on a present document -/

theorem load_yaml_parsed_map (fs : FS) (p : String) (kvs : YMap)
    (h : aget fs p = some (.parsed (.map kvs))) :
    load_yaml fs p = .ok (.map kvs) := by
  unfold load_yaml
  rw [h]
  cases kvs with
  | nil => simp [isFalsy]
  | cons kv rest => simp [isFalsy]

theorem update_model_eq (fs : FS) (path n : String) (cfg kvs : YMap)
    (ms : List YVal)
    (hdoc : aget fs path = some (.parsed (.map kvs)))
    (hms : aget kvs "models" = some (.list ms)) :
    update_model fs path n cfg
      = match findReplace ms n cfg with
        | .error e => .error e
        | .ok none =>
            .error (.valueError ("Model " ++ n ++ " not found in " ++ path))
        | .ok (some ms') =>
            .ok (save_yaml fs (.map (aset kvs "models" (.list ms'))) path) := by
  unfold update_model
  rw [load_yaml_parsed_map fs path kvs hdoc]
  simp only [hms]

theorem delete_model_eq (fs : FS) (path n : String) (kvs : YMap)
    (ms : List YVal)
    (hdoc : aget fs path = some (.parsed (.map kvs)))
    (hms : aget kvs "models" = some (.list ms)) :
    delete_model fs path n
      = match filterModels ms n with
        | .error e => .error e
        | .ok ms' =>
            if ms'.isEmpty then .ok (aremove fs path)
            else .ok (save_yaml fs (.map (aset kvs "models" (.list ms'))) path) := by
  unfold delete_model
  rw [load_yaml_parsed_map fs path kvs hdoc]
  simp only [hms]

theorem create_model_eq (fs : FS) (dir n : String) (cfg : YMap)
    (fo : Option String) (kvs : YMap) (ms : List YVal)
    (hdoc : aget fs (dir ++ "/" ++ fo.getD (n ++ ".yml"))
      = some (.parsed (.map kvs)))
    (hms : aget kvs "models" = some (.list ms)) :
    create_model fs dir n cfg fo
      = match hasDup ms n with
        | .error e => .error e
        | .ok true =>
            .error (.valueError
              ("Model " ++ n ++ " already exists in " ++ fo.getD (n ++ ".yml")))
        | .ok false =>
            .ok (save_yaml fs (.map (aset kvs "models"
                (.list (ms ++ [YVal.map (mkRecord n cfg)]))))
              (dir ++ "/" ++ fo.getD (n ++ ".yml")),
              dir ++ "/" ++ fo.getD (n ++ ".yml")) := by
  have hmem : amember kvs "models" = true := by simp [amember, hms]
  simp only [create_model]
  rw [load_yaml_parsed_map _ _ _ hdoc]
  simp only [hmem, if_true, hms]

/-! ## Claims -/

/-- C6: `load` on a missing file returns an empty mapping (not an error);
`load` on a present file whose content parses to a falsy value (None from
an empty file, an empty mapping, ...) returns an empty mapping; `load` on
a present but malformed file fails with the ParseError
`ValueError("Error parsing YAML file: <message>")` carrying the underlying
parser message. -/
theorem load_contract (fs : FS) (p msg : String) (v : YVal) :
    (aget fs p = none → load_yaml fs p = .ok (.map []))
    ∧ (aget fs p = some (.parsed v) → isFalsy v = true →
        load_yaml fs p = .ok (.map []))
    ∧ (aget fs p = some (.malformed msg) →
        load_yaml fs p
          = .error (.valueError ("Error parsing YAML file: " ++ msg))) := by
  refine ⟨fun h => ?_, fun h hf => ?_, fun h => ?_⟩ <;> unfold load_yaml <;> rw [h]
  simp [hf]

/-- Witness for C6: a missing path, a present file whose content parses to
null, and a malformed file. -/
theorem load_contract_witness :
    load_yaml [] "missing.yml" = .ok (.map [])
    ∧ load_yaml [("e.yml", Content.parsed YVal.null)] "e.yml" = .ok (.map [])
    ∧ load_yaml [("b.yml", Content.malformed "bad token")] "b.yml"
        = .error (.valueError ("Error parsing YAML file: " ++ "bad token")) :=
  ⟨(load_contract [] "missing.yml" "bad token" YVal.null).1 rfl,
   (load_contract [("e.yml", Content.parsed YVal.null)] "e.yml" "bad token"
      YVal.null).2.1 rfl rfl,
   (load_contract [("b.yml", Content.malformed "bad token")] "b.yml" "bad token"
      YVal.null).2.2 rfl⟩

/-- C8: for a previously saved document `d` (its content is the
serialization of a mapping `kvs`), `save(load(d), d)` reproduces the file
exactly: `load` returns the stored mapping unchanged — key order included,
`YMap` being ordered and the serializer (`yaml.dump` with
`sort_keys=False`) never sorting keys — and saving it back leaves the
filesystem equal, which at the byte level means identical content since
the serializer is a deterministic function of the parsed value. -/
theorem save_load_roundtrip (fs : FS) (d : String) (kvs : YMap)
    (h : aget fs d = some (Content.parsed (.map kvs))) :
    load_yaml fs d = .ok (.map kvs) ∧ save_yaml fs (.map kvs) d = fs :=
  ⟨load_yaml_parsed_map fs d kvs h, aset_eq_of_aget fs d _ h⟩

/-- Witness for C8 on a concrete saved document with two keys in
non-alphabetical order. -/
theorem save_load_roundtrip_witness :
    load_yaml [("m.yml", Content.parsed (.map [("models", .list
        [.map [("name", YVal.str "orders"), ("materialized", YVal.str "table")]])]))]
      "m.yml"
      = .ok (.map [("models", .list
          [.map [("name", YVal.str "orders"), ("materialized", YVal.str "table")]])])
    ∧ save_yaml [("m.yml", Content.parsed (.map [("models", .list
        [.map [("name", YVal.str "orders"), ("materialized", YVal.str "table")]])]))]
      (.map [("models", .list
          [.map [("name", YVal.str "orders"), ("materialized", YVal.str "table")]])])
      "m.yml"
      = [("m.yml", Content.parsed (.map [("models", .list
          [.map [("name", YVal.str "orders"), ("materialized", YVal.str "table")]])]))] :=
  save_load_roundtrip _ "m.yml" _ rfl

/-- C9: `validate_yaml` is a pure predicate (`YVal → Bool`, no filesystem
argument, no effects) returning `true` exactly when the value is a mapping
that contains the key `models`, the value under `models` is a sequence,
and every element is a mapping containing a `name` key — the property
`ValidSpec` transcribed from the spec's wording. -/
theorem validate_yaml_iff (v : YVal) : validate_yaml v = true ↔ ValidSpec v := by
  constructor
  · intro h
    cases v with
    | map kvs =>
      simp only [validate_yaml] at h
      cases hms : aget kvs "models" with
      | none => simp [hms] at h
      | some w =>
        cases w with
        | list ms =>
          simp only [hms] at h
          refine ⟨kvs, ms, rfl, hms, ?_⟩
          intro m hm
          have hp := (List.all_eq_true.1 h) m hm
          cases m with
          | map r => exact ⟨r, rfl, hp⟩
          | null => simp at hp
          | bool b => simp at hp
          | int i => simp at hp
          | str s => simp at hp
          | list xs => simp at hp
        | null => simp [hms] at h
        | bool b => simp [hms] at h
        | int i => simp [hms] at h
        | str s => simp [hms] at h
        | map kvs2 => simp [hms] at h
    | null => simp [validate_yaml] at h
    | bool b => simp [validate_yaml] at h
    | int i => simp [validate_yaml] at h
    | str s => simp [validate_yaml] at h
    | list xs => simp [validate_yaml] at h
  · rintro ⟨kvs, ms, rfl, hms, hall⟩
    simp only [validate_yaml, hms]
    refine List.all_eq_true.2 ?_
    intro m hm
    obtain ⟨r, hr, hmem⟩ := hall m hm
    subst hr
    exact hmem

/-- C4: creating a model whose name is already borne by a record of the
target document fails with the DuplicateModelError
`ValueError("Model <n> already exists in <file>")`.  The error is raised
before any write: an error return of `create_model` produces no new
filesystem, so the document on disk is unchanged. -/
theorem create_duplicate_fails (fs : FS) (dir n : String) (cfg : YMap)
    (fo : Option String) (kvs : YMap) (ms : List YVal)
    (hdoc : aget fs (dir ++ "/" ++ fo.getD (n ++ ".yml"))
      = some (Content.parsed (.map kvs)))
    (hms : aget kvs "models" = some (.list ms))
    (hrec : ∀ m ∈ ms, ∃ r, m = YVal.map r)
    (hex : ∃ r, YVal.map r ∈ ms ∧ isNameMatch r n = true) :
    create_model fs dir n cfg fo
      = .error (.valueError
          ("Model " ++ n ++ " already exists in " ++ fo.getD (n ++ ".yml"))) := by
  rw [create_model_eq fs dir n cfg fo kvs ms hdoc hms,
    hasDup_eq_true ms n hrec hex]

/-- Witness for C4: a second creation of `a` in a document already holding
a record named `a`. -/
theorem create_duplicate_fails_witness :
    create_model
      [("d/f.yml", Content.parsed (.map [("models", .list
          [.map [("name", YVal.str "a")]])]))]
      "d" "a" [("x", YVal.int 1)] (some "f.yml")
      = .error (.valueError "Model a already exists in f.yml") :=
  create_duplicate_fails _ "d" "a" [("x", YVal.int 1)] (some "f.yml") _ _
    rfl rfl
    (by intro m hm; simp at hm; exact ⟨_, hm⟩)
    ⟨[("name", YVal.str "a")], by simp, rfl⟩

/-- C5: `update_model` replaces the first matching record wholesale, not
field by field: earlier non-matching records and later records are kept,
and the matched record becomes exactly `name` followed by the entries of
`new_fields`, so every field of the old record that is missing from
`new_fields` is dropped. -/
theorem update_replaces_wholesale (fs : FS) (path n : String)
    (cfg kvs : YMap) (pre post : List YVal) (r : YMap)
    (hdoc : aget fs path = some (Content.parsed (.map kvs)))
    (hms : aget kvs "models" = some (.list (pre ++ YVal.map r :: post)))
    (hpre : ∀ m ∈ pre, ∃ q, m = YVal.map q ∧ isNameMatch q n = false)
    (hr : isNameMatch r n = true)
    (hcfg : aget cfg "name" = none)
    (hnd : (cfg.map Prod.fst).Nodup) :
    update_model fs path n cfg
      = .ok (save_yaml fs (.map (aset kvs "models"
          (.list (pre ++ YVal.map (("name", YVal.str n) :: cfg) :: post)))) path) := by
  rw [update_model_eq fs path n cfg kvs _ hdoc hms,
    findReplace_found pre post r n cfg hpre hr,
    mkRecord_no_name n cfg hcfg hnd]

/-- Witness for C5, the spec's own example: the record
`\x7bname: m, a: 1, b: 2\x7d` updated with `\x7bc: 3\x7d` becomes
`\x7bname: m, c: 3\x7d`, and the fields `a` and `b` are absent
afterwards. -/
theorem update_replaces_wholesale_witness :
    update_model
      [("f.yml", Content.parsed (.map [("models", .list
          [.map [("name", YVal.str "m"), ("a", YVal.int 1), ("b", YVal.int 2)]])]))]
      "f.yml" "m" [("c", YVal.int 3)]
      = .ok [("f.yml", Content.parsed (.map [("models", .list
          [.map [("name", YVal.str "m"), ("c", YVal.int 3)]])]))]
    ∧ aget [("name", YVal.str "m"), ("c", YVal.int 3)] "a" = none
    ∧ aget [("name", YVal.str "m"), ("c", YVal.int 3)] "b" = none := by
  refine ⟨?_, rfl, rfl⟩
  exact update_replaces_wholesale
    [("f.yml", Content.parsed (.map [("models", .list
        [.map [("name", YVal.str "m"), ("a", YVal.int 1), ("b", YVal.int 2)]])]))]
    "f.yml" "m" [("c", YVal.int 3)]
    [("models", .list
        [.map [("name", YVal.str "m"), ("a", YVal.int 1), ("b", YVal.int 2)]])]
    [] []
    [("name", YVal.str "m"), ("a", YVal.int 1), ("b", YVal.int 2)]
    rfl rfl (by simp) rfl rfl (by simp)

/-- C7: deleting the only record of a document removes the file from disk
entirely: afterwards the path no longer exists and a subsequent `load` of
that path returns an empty mapping. -/
theorem delete_last_removes_file (fs : FS) (path n : String)
    (kvs r : YMap)
    (hdoc : aget fs path = some (Content.parsed (.map kvs)))
    (hms : aget kvs "models" = some (.list [YVal.map r]))
    (hr : isNameMatch r n = true) :
    delete_model fs path n = .ok (aremove fs path)
    ∧ aget (aremove fs path) path = none
    ∧ load_yaml (aremove fs path) path = .ok (.map []) := by
  refine ⟨?_, aget_aremove_self fs path, ?_⟩
  · rw [delete_model_eq fs path n kvs _ hdoc hms]
    have hfil : filterModels [YVal.map r] n = .ok [] := by
      simp [filterModels, hr]
    rw [hfil]
    rfl
  · unfold load_yaml
    rw [aget_aremove_self]

/-- Witness for C7 on a document holding the single record `orders`. -/
theorem delete_last_removes_file_witness :
    delete_model [("orders.yml", Content.parsed (.map [("models", .list
        [.map [("name", YVal.str "orders")]])]))] "orders.yml" "orders"
      = .ok (aremove [("orders.yml", Content.parsed (.map [("models", .list
          [.map [("name", YVal.str "orders")]])]))] "orders.yml")
    ∧ aget (aremove [("orders.yml", Content.parsed (.map [("models", .list
        [.map [("name", YVal.str "orders")]])]))] "orders.yml") "orders.yml" = none
    ∧ load_yaml (aremove [("orders.yml", Content.parsed (.map [("models", .list
        [.map [("name", YVal.str "orders")]])]))] "orders.yml") "orders.yml"
      = .ok (.map []) :=
  delete_last_removes_file _ "orders.yml" "orders" _ _ rfl rfl rfl

/-- C10: `delete_model` has no not-found check.  When `models` is bound to
the empty list it succeeds for any name whatsoever and unlinks the file;
when `models` is non-empty but holds no record with the given name it
succeeds and rewrites the file with unchanged content (the filtered list,
hence the saved document, equals the original, so the result filesystem is
`fs` itself). -/
theorem delete_without_match (fs : FS) (path n : String) (kvs : YMap)
    (ms : List YVal)
    (hdoc : aget fs path = some (Content.parsed (.map kvs)))
    (hms : aget kvs "models" = some (.list ms))
    (habsent : ∀ m ∈ ms, ∃ r, m = YVal.map r ∧ isNameMatch r n = false) :
    (ms = [] → delete_model fs path n = .ok (aremove fs path)
      ∧ aget (aremove fs path) path = none)
    ∧ (ms ≠ [] → delete_model fs path n = .ok fs) := by
  have heval := delete_model_eq fs path n kvs ms hdoc hms
  rw [filterModels_no_match ms n habsent] at heval
  constructor
  · rintro rfl
    exact ⟨heval, aget_aremove_self fs path⟩
  · intro hne
    have he : ms.isEmpty = false := by
      cases ms with
      | nil => exact absurd rfl hne
      | cons m rest => rfl
    rw [heval]
    simp only [he, Bool.false_eq_true, if_false]
    rw [aset_eq_of_aget kvs "models" _ hms]
    simp only [save_yaml]
    rw [aset_eq_of_aget fs path _ hdoc]

/-- Witness for C10: an empty collection is unlinked under a name that
never existed, and a non-matching delete on a one-record document leaves
the filesystem equal. -/
theorem delete_without_match_witness :
    (delete_model [("e.yml", Content.parsed (.map [("models", YVal.list [])]))]
        "e.yml" "zzz"
        = .ok (aremove [("e.yml", Content.parsed (.map [("models", YVal.list [])]))]
            "e.yml")
      ∧ aget (aremove [("e.yml", Content.parsed (.map [("models", YVal.list [])]))]
          "e.yml") "e.yml" = none)
    ∧ delete_model [("f.yml", Content.parsed (.map [("models", .list
        [.map [("name", YVal.str "a")]])]))] "f.yml" "b"
        = .ok [("f.yml", Content.parsed (.map [("models", .list
            [.map [("name", YVal.str "a")]])]))] := by
  constructor
  · exact (delete_without_match
      [("e.yml", Content.parsed (.map [("models", YVal.list [])]))]
      "e.yml" "zzz" [("models", YVal.list [])] [] rfl rfl (by simp)).1 rfl
  · exact (delete_without_match
      [("f.yml", Content.parsed (.map [("models", .list
          [.map [("name", YVal.str "a")]])]))]
      "f.yml" "b" [("models", .list [.map [("name", YVal.str "a")]])]
      [YVal.map [("name", YVal.str "a")]] rfl rfl
      (by intro m hm; simp at hm; subst hm; exact ⟨_, rfl, rfl⟩)).2 (by simp)

/-- C1 counterexample: the claim asserts that `delete_model` on a name
never present in the `models` collection fails with NotFoundError; in fact
the call succeeds — here it even returns the filesystem unchanged — because
`delete_model` performs no not-found check. -/
theorem delete_notfound_counterexample :
    delete_model [("f.yml", Content.parsed (.map [("models", .list
        [.map [("name", YVal.str "a")]])]))] "f.yml" "b"
      = .ok [("f.yml", Content.parsed (.map [("models", .list
          [.map [("name", YVal.str "a")]])]))] := rfl

/-- C1 (amended): on a document whose `models` collection holds no record
with the given name, `update_model` fails with the NotFoundError
`ValueError("Model <n> not found in <path>")` — and, an error return
producing no new filesystem, the document on disk is unchanged — while
`delete_model` returns without error. -/
theorem notfound_update_fails_delete_does_not (fs : FS) (path n : String)
    (cfg kvs : YMap) (ms : List YVal)
    (hdoc : aget fs path = some (Content.parsed (.map kvs)))
    (hms : aget kvs "models" = some (.list ms))
    (habsent : ∀ m ∈ ms, ∃ r, m = YVal.map r ∧ isNameMatch r n = false) :
    update_model fs path n cfg
        = .error (.valueError ("Model " ++ n ++ " not found in " ++ path))
    ∧ ∃ fs', delete_model fs path n = .ok fs' := by
  constructor
  · rw [update_model_eq fs path n cfg kvs ms hdoc hms,
      findReplace_none ms n cfg habsent]
  · have heval := delete_model_eq fs path n kvs ms hdoc hms
    rw [filterModels_no_match ms n habsent] at heval
    by_cases he : ms.isEmpty = true
    · exact ⟨aremove fs path, by rw [heval]; simp [he]⟩
    · refine ⟨save_yaml fs (.map (aset kvs "models" (.list ms))) path, ?_⟩
      rw [heval]
      simp [he]

/-- Witness for C1 (amended) on a one-record document and the absent name
`b`. -/
theorem notfound_update_fails_delete_does_not_witness :
    update_model [("f.yml", Content.parsed (.map [("models", .list
        [.map [("name", YVal.str "a")]])]))] "f.yml" "b" [("c", YVal.int 1)]
        = .error (.valueError "Model b not found in f.yml")
    ∧ ∃ fs', delete_model [("f.yml", Content.parsed (.map [("models", .list
        [.map [("name", YVal.str "a")]])]))] "f.yml" "b" = .ok fs' :=
  notfound_update_fails_delete_does_not _ "f.yml" "b" [("c", YVal.int 1)] _
    [YVal.map [("name", YVal.str "a")]] rfl rfl
    (by intro m hm; simp at hm; subst hm; exact ⟨_, rfl, rfl⟩)

/-- C2 counterexample: `create_model` with explicit name `m` and a fields
mapping containing `name: x` stores the record `\x7bname: x\x7d` — the
`name` value of the fields mapping wins over the explicit argument,
because the Python dict literal `\x7b"name": model_name, **config\x7d`
lets the later spread overwrite the value. -/
theorem create_name_overridden_counterexample :
    create_model [] "d" "m" [("name", YVal.str "x")] none
      = .ok ([("d/m.yml", Content.parsed (.map [("models",
          .list [.map [("name", YVal.str "x")]])]))], "d/m.yml")
    ∧ recNameStr (YVal.map [("name", YVal.str "x")]) = some "x"
    ∧ "x" ≠ "m" :=
  ⟨rfl, rfl, by decide⟩

/-- C2 (amended): the record `create_model` appends is the Python dict
literal `\x7b"name": name, **fields\x7d` (`mkRecord`): the `name` key
always comes first, and when `fields` itself contains a `name` key the
key keeps the first position but its VALUE comes from `fields`, which
overrides the explicit argument; when `fields` has no `name` key the
record is `name` followed by `fields` in order. -/
theorem create_record_dict_literal (n : String) (cfg pre post : YMap)
    (w : YVal) :
    (aget cfg "name" = none → (cfg.map Prod.fst).Nodup →
      mkRecord n cfg = ("name", YVal.str n) :: cfg)
    ∧ (((pre ++ ("name", w) :: post).map Prod.fst).Nodup →
      mkRecord n (pre ++ ("name", w) :: post) = ("name", w) :: (pre ++ post)) :=
  ⟨fun h hnd => mkRecord_no_name n cfg h hnd,
   fun hnd => mkRecord_with_name n pre post w hnd⟩

/-- Witness for C2 (amended): a fields mapping without `name`, and one
with `name: x` between two other fields. -/
theorem create_record_dict_literal_witness :
    mkRecord "m" [("a", YVal.int 1)] = [("name", YVal.str "m"), ("a", YVal.int 1)]
    ∧ mkRecord "m" [("a", YVal.int 1), ("name", YVal.str "x"), ("b", YVal.int 2)]
      = [("name", YVal.str "x"), ("a", YVal.int 1), ("b", YVal.int 2)] :=
  ⟨(create_record_dict_literal "m" [("a", YVal.int 1)] [("a", YVal.int 1)]
      [("b", YVal.int 2)] (YVal.str "x")).1 rfl (by simp),
   (create_record_dict_literal "m" [("a", YVal.int 1)] [("a", YVal.int 1)]
      [("b", YVal.int 2)] (YVal.str "x")).2 (by simp)⟩

/-- C3 counterexample: a filesystem reachable from the empty filesystem by
two successful `create_model` calls — `create_model("a", \x7b\x7d)` and then
`create_model("b", \x7bname: a\x7d, file_name = "a.yml")` — whose single
document holds two records both named `a`: the create-time duplicate check
compares the explicit argument `b`, not the stored name `a`, so the
per-document name-uniqueness invariant is not preserved. -/
theorem names_not_unique_counterexample :
    RepoReach [("d/a.yml", Content.parsed (.map [("models",
        .list [.map [("name", YVal.str "a")], .map [("name", YVal.str "a")]])]))]
    ∧ ¬ (([YVal.map [("name", YVal.str "a")], YVal.map [("name", YVal.str "a")]
        ].filterMap recNameStr).Nodup) := by
  constructor
  · refine RepoReach.step
      [("d/a.yml", Content.parsed (.map [("models",
          .list [.map [("name", YVal.str "a")]])]))]
      [("d/a.yml", Content.parsed (.map [("models",
          .list [.map [("name", YVal.str "a")], .map [("name", YVal.str "a")]])]))]
      (RepoReach.step []
        [("d/a.yml", Content.parsed (.map [("models",
            .list [.map [("name", YVal.str "a")]])]))]
        RepoReach.init ?s1) ?s2
    case s1 =>
      exact @RepoStep.create [] "d" "a" [] none
        [("d/a.yml", Content.parsed (.map [("models",
            .list [.map [("name", YVal.str "a")]])]))] "d/a.yml" rfl
    case s2 =>
      exact @RepoStep.create
        [("d/a.yml", Content.parsed (.map [("models",
            .list [.map [("name", YVal.str "a")]])]))]
        "d" "b" [("name", YVal.str "a")] (some "a.yml")
        [("d/a.yml", Content.parsed (.map [("models",
            .list [.map [("name", YVal.str "a")], .map [("name", YVal.str "a")]])]))]
        "d/a.yml" rfl
  · decide

/-- C3 (amended): in every document of a filesystem reachable from the
empty filesystem by successful `create_model` / `update_model` /
`delete_model` calls whose fields mappings carry no `name` key, the
`models` collection is a list of records with string names and no two
records share the same name (`docOk`). -/
theorem reachable_docs_names_unique (fs : FS) (h : SafeReach fs)
    (p : String) (c : Content) (hc : aget fs p = some c) : docOk c :=
  fsOk_of_safeReach fs h p c hc

/-- Witness for C3 (amended): the document written by one successful
`create_model("a", \x7b\x7d)` from the empty filesystem. -/
theorem reachable_docs_names_unique_witness :
    docOk (Content.parsed (.map [("models",
        .list [.map [("name", YVal.str "a")]])])) :=
  reachable_docs_names_unique
    [("d/a.yml", Content.parsed (.map [("models",
        .list [.map [("name", YVal.str "a")]])]))]
    (SafeReach.step []
      [("d/a.yml", Content.parsed (.map [("models",
          .list [.map [("name", YVal.str "a")]])]))]
      SafeReach.init
      (@SafeStep.create [] "d" "a" [] none
        [("d/a.yml", Content.parsed (.map [("models",
            .list [.map [("name", YVal.str "a")]])]))] "d/a.yml" rfl rfl))
    "d/a.yml" _ rfl
